import Mathlib

/-!
Verification of the lenient JSON decoder of this repository
(`src/base/json/json_parser.rs` and `src/base/values_deserialization.rs`).

The development shallowly embeds the Rust code:

* `RecursionDepthCheck` / `RecursionDepthCheck.recurse` mirror the depth
  counter of `values_deserialization.rs` (including the `checked_sub`).
* `JsonEvent` is the tree of typed events which the byte-level tokenizer
  (the external `serde_json_lenient` crate) delivers to `ValueVisitor`
  through `deserialize_any`; `visitValue` / `visitSeqElems` /
  `visitMapEntries` embed `ValueVisitor`'s `visit_*` methods.  The
  `DeserializationTarget` dispatch of the source (NewValue / List / Dict)
  only selects *where* a constructed value is placed; in the functional
  embedding each visit returns the value it built for its own slot and
  the parent performs the placement, so the three placement arms of every
  `match self.container` collapse to a single returned value.
* Machine integers (`usize`, `i32`, `i64`, `u64`) are embedded as
  `Nat` / `Int` with explicit range constants; the fallible unsigned
  subtraction is `usize_sub` (whose `none` branch is Rust's
  underflow/panic branch).
* `f64` values are embedded by their exact rational value; the Rust
  integer-to-float cast `n as f64` (round to nearest, ties to even) is
  `f64OfInt`.
-/

/-- Smallest value of the Rust `i32` type. -/
def i32Min : Int := -(2 ^ 31)

/-- Largest value of the Rust `i32` type. -/
def i32Max : Int := 2 ^ 31 - 1

/-- Smallest value of the Rust `i64` type. -/
def i64Min : Int := -(2 ^ 63)

/-- Largest value of the Rust `i64` type. -/
def i64Max : Int := 2 ^ 63 - 1

/-- Largest value of the Rust `u64` type. -/
def u64Max : Nat := 2 ^ 64 - 1

/-- Rust `usize::checked_sub`: `some (a - b)` when the subtraction does not
underflow, `none` otherwise. -/
def checked_sub (a b : Nat) : Option Nat :=
  if b ≤ a then some (a - b) else none

/-- Rust bare unsigned subtraction `a - b` as performed by `decode_json`
(`options.max_depth - 2`).  The `none` branch is the underflow branch, which
panics in a debug build; a caller satisfying the `max_depth >= 2` contract
never reaches it. -/
def usize_sub (a b : Nat) : Option Nat :=
  if b ≤ a then some (a - b) else none

/-- Errors produced through the serde `Error::custom` channel
(`values_deserialization.rs` only ever constructs
`Error::custom("recursion limit exceeded")`); tokenizer-side errors use the
same channel with other messages. -/
inductive DeError where
  | custom (msg : String)
  deriving DecidableEq, Repr

/-- The message of the only error `values_deserialization.rs` constructs. -/
def recursionLimitMsg : String := "recursion limit exceeded"

/-- The `RecursionLimitExceeded` error value. -/
def recursionLimitError : DeError := DeError.custom recursionLimitMsg

/-- Embedding of `struct RecursionDepthCheck(usize)` from
`values_deserialization.rs`: a single remaining-depth counter. -/
structure RecursionDepthCheck where
  val : Nat
  deriving DecidableEq, Repr

/-- Embedding of `RecursionDepthCheck::recurse`: recurse a level and return an
error if we have recursed too far (`self.0.checked_sub(1)`), otherwise a new
check wrapping the decremented counter.  The receiver is taken by shared
reference in the source (`&self`) and is never mutated. -/
def RecursionDepthCheck.recurse (c : RecursionDepthCheck) :
    Except DeError RecursionDepthCheck :=
  match checked_sub c.val 1 with
  | some recursion_limit => .ok ⟨recursion_limit⟩
  | none => .error (DeError.custom recursionLimitMsg)

/-- The tree of typed events the tokenizer feeds into `ValueVisitor` via
`deserialize_any`: one constructor per `visit_*` entry point of the visitor
(`eNull` covers both `visit_none` and `visit_unit`, `eStr` covers the three
string ownership forms, which all dispatch identically). -/
inductive JsonEvent where
  | eNull
  | eBool (b : Bool)
  | eI8 (n : Int)
  | eI32 (n : Int)
  | eI64 (n : Int)
  | eU64 (n : Nat)
  | eF64 (x : Rat)
  | eStr (s : String)
  | eMap (entries : List (String × JsonEvent))
  | eSeq (elems : List JsonEvent)
  deriving Repr

/-- The states of the caller-provided `base::Value` sink cell
(`ValueSlot` + child `base::Value`s reached through `DictValueRef` /
`ListValueRef` handles).  `unset` is the fresh, never-written slot. -/
inductive SinkValue where
  | unset
  | none
  | bool (b : Bool)
  | integer (n : Int)
  | double (x : Rat)
  | string (s : String)
  | dict (entries : List (String × SinkValue))
  | list (elems : List SinkValue)
  deriving Repr

/-- `DictValueRef::set_*_key` semantics: insert the key or overwrite an
existing binding. -/
def dictSet (d : List (String × SinkValue)) (k : String) (v : SinkValue) :
    List (String × SinkValue) :=
  match d with
  | [] => [(k, v)]
  | (k', v') :: rest => if k' = k then (k, v) :: rest else (k', v') :: dictSet rest k v

/-- Embedding of `i32::try_from` applied to an `i64` value
(`ValueVisitor::visit_i64`). -/
def i32_try_from_i64 (n : Int) : Option Int :=
  if i32Min ≤ n ∧ n ≤ i32Max then some n else none

/-- Embedding of `i32::try_from` applied to a `u64` value
(`ValueVisitor::visit_u64`). -/
def i32_try_from_u64 (m : Nat) : Option Int :=
  if (m : Int) ≤ i32Max then some (m : Int) else none

/-- Round a natural number to 53 significant bits, ties to even: the
magnitude part of the Rust cast `n as f64` (IEEE-754 round to nearest even).
Below `2 ^ 53` the value is exactly representable and returned unchanged. -/
def roundToF64Nat (m : Nat) : Nat :=
  if m < 2 ^ 53 then m
  else
    let e := m.log2 - 52
    let q := m / 2 ^ e
    let r := m % 2 ^ e
    if 2 ^ (e - 1) < r ∨ (r = 2 ^ (e - 1) ∧ q % 2 = 1) then (q + 1) * 2 ^ e
    else q * 2 ^ e

/-- The Rust cast `n as f64` for a 64-bit integer `n`, returned as the exact
integer value of the resulting double (every `i64`/`u64` converts to a double
whose value is an integer, because the rounding step size is a power of two). -/
def f64OfInt (n : Int) : Int :=
  if 0 ≤ n then (roundToF64Nat n.toNat : Int) else -(roundToF64Nat (-n).toNat : Int)

mutual

/-- Embedding of `ValueVisitor`'s visit dispatch
(`values_deserialization.rs`, `impl Visitor for ValueVisitor`): one call per
JSON value.  Returns the `base::Value` written into the visitor's target slot
together with the error, if any, that aborted the visit; on error the value is
the partially populated state the sink is left in (the source performs no
rollback).  Scalar events never consult the recursion check; `visit_i8`
widens to `visit_i32`; `visit_i64` / `visit_u64` attempt `i32::try_from` and
fall back to `visit_f64 (value as f64)`. -/
def visitValue : JsonEvent → RecursionDepthCheck → SinkValue × Option DeError
  | .eNull, _ => (.none, Option.none)
  | .eBool b, _ => (.bool b, Option.none)
  | .eI32 n, _ => (.integer n, Option.none)
  | .eI8 n, _ => (.integer n, Option.none)
  | .eI64 n, _ =>
    match i32_try_from_i64 n with
    | some v => (.integer v, Option.none)
    | Option.none => (.double ((f64OfInt n : Int) : Rat), Option.none)
  | .eU64 m, _ =>
    match i32_try_from_u64 m with
    | some v => (.integer v, Option.none)
    | Option.none => (.double ((f64OfInt m : Int) : Rat), Option.none)
  | .eF64 x, _ => (.double x, Option.none)
  | .eStr s, _ => (.string s, Option.none)
  | .eMap kvs, g =>
    let r := visitMapEntries g kvs []
    (.dict r.1, r.2)
  | .eSeq es, g =>
    let r := visitSeqElems g es []
    (.list r.1, r.2)
termination_by ev _ => sizeOf ev
decreasing_by all_goals simp_wf

/-- Embedding of the loop of `ValueVisitor::visit_seq`.  The container list
was already constructed (`construct_list` / `append_list` / `set_list_key`)
before the loop; `reserve_size` is a capacity hint with no semantic effect.
Mirroring the source, `self.recursion_depth_check.recurse()?` is evaluated
when the next seed is built, i.e. once per iteration *before* the access
learns whether another element exists — so the check runs even for the
iteration that discovers the end of the sequence (and once for an empty
sequence). -/
def visitSeqElems (g : RecursionDepthCheck) (es : List JsonEvent)
    (acc : List SinkValue) : List SinkValue × Option DeError :=
  match g.recurse with
  | .error e => (acc, some e)
  | .ok g' =>
    match es with
    | [] => (acc, Option.none)
    | e :: rest =>
      let r := visitValue e g'
      match r.2 with
      | some err => (acc ++ [r.1], some err)
      | Option.none => visitSeqElems g rest (acc ++ [r.1])
termination_by sizeOf es
decreasing_by all_goals simp_wf <;> omega

/-- Embedding of the loop of `ValueVisitor::visit_map`.  The container dict
was already constructed before the loop.  Mirroring the source, the key is
read first (`access.next_key`), and only then is
`self.recursion_depth_check.recurse()?` evaluated while building the seed for
the value — so an empty map performs no recursion check at all, and a failing
check aborts before the key's value is written. -/
def visitMapEntries (g : RecursionDepthCheck) (kvs : List (String × JsonEvent))
    (acc : List (String × SinkValue)) :
    List (String × SinkValue) × Option DeError :=
  match kvs with
  | [] => (acc, Option.none)
  | (k, e) :: rest =>
    match g.recurse with
    | .error err => (acc, some err)
    | .ok g' =>
      let r := visitValue e g'
      let acc' := dictSet acc k r.1
      match r.2 with
      | some err => (acc', some err)
      | Option.none => visitMapEntries g rest acc'
termination_by sizeOf kvs
decreasing_by all_goals simp_wf <;> omega

end

/-- Embedding of the `JsonOptions` struct of `json_parser.rs`. -/
structure JsonOptions where
  allow_trailing_commas : Bool
  replace_invalid_characters : Bool
  allow_comments : Bool
  allow_control_chars : Bool
  allow_vert_tab : Bool
  allow_x_escapes : Bool
  max_depth : Nat
  deriving DecidableEq, Repr

/-- Embedding of `JsonOptions::with_chromium_extensions` from
`json_parser.rs`. -/
def JsonOptions.with_chromium_extensions (max_depth : Nat) : JsonOptions :=
  { allow_trailing_commas := false
    replace_invalid_characters := false
    allow_comments := true
    allow_control_chars := true
    allow_vert_tab := true
    allow_x_escapes := true
    max_depth := max_depth }

/-- Embedding of the `ValueVisitor` state constructed by
`ValueVisitor::new`: the `container` field always holds the root
`NewValue { slot }` target there, so only the recursion check is carried. -/
structure ValueVisitor where
  recursion_depth_check : RecursionDepthCheck
  deriving DecidableEq, Repr

/-- Embedding of `ValueVisitor::new(slot, max_depth)`: the constructor
increments the received count by one (`max_depth += 1`) because the visitor
will decrement once for the initial `base::Value` before any nested layer. -/
def ValueVisitor.new (max_depth : Nat) : ValueVisitor :=
  ⟨⟨max_depth + 1⟩⟩

/-- The event-level core of `decode_json` (`json_parser.rs`): steps 4–6 of
the decode pipeline, with the byte-level tokenizer abstracted into the event
tree it delivers through `deserialize_any`.  The guard is initialised via
`ValueVisitor::new(value_slot, options.max_depth - 2)`; the bare unsigned
subtraction is `usize_sub`, whose `none` (underflow/panic) result makes the
whole call `none`. -/
def decode_json (ev : JsonEvent) (options : JsonOptions) :
    Option (SinkValue × Option DeError) :=
  (usize_sub options.max_depth 2).map
    (fun d => visitValue ev (ValueVisitor.new d).recursion_depth_check)

/-- The UTF-8 byte order mark, as in `json_parser.rs` (`UTF8_BOM`). -/
def UTF8_BOM : List Nat := [0xef, 0xbb, 0xbf]

/-- Embedding of the BOM-stripping step of `decode_json`:
`if to_parse.len() >= 3 && to_parse[0..3] == UTF8_BOM { &to_parse[3..] }`. -/
def stripBom (json : List Nat) : List Nat :=
  if 3 ≤ json.length ∧ json.take 3 = UTF8_BOM then json.drop 3 else json

/-- Byte-level `decode_json` (`json_parser.rs`), parameterised over the
tokenizer (the external `serde_json_lenient` deserializer, configured from
the options): the input bytes are BOM-stripped, tokenized into the event tree
(or a tokenizer error), and visited with the depth-offset guard.  A tokenizer
error that occurs before any event is delivered leaves the sink `unset`. -/
def decode_json_bytes (tokenize : List Nat → JsonOptions → Except DeError JsonEvent)
    (json : List Nat) (options : JsonOptions) :
    Option (SinkValue × Option DeError) :=
  let to_parse := stripBom json
  (usize_sub options.max_depth 2).map
    (fun d =>
      match tokenize to_parse options with
      | .error e => (SinkValue.unset, some e)
      | .ok ev => visitValue ev (ValueVisitor.new d).recursion_depth_check)

/-- JSON whitespace test for a byte. -/
def isWs (b : Nat) : Bool := b = 0x20 ∨ b = 0x09 ∨ b = 0x0a ∨ b = 0x0d

/-- Drop leading JSON whitespace bytes. -/
def skipWs : List Nat → List Nat
  | [] => []
  | b :: rest => if isWs b then skipWs rest else b :: rest

/-- ASCII decimal digit test for a byte. -/
def isDigit (b : Nat) : Bool := 0x30 ≤ b ∧ b ≤ 0x39

/-- Accumulate a decimal integer literal from leading digit bytes. -/
def takeDigits : List Nat → Nat → Nat × List Nat
  | [], acc => (acc, [])
  | b :: rest, acc =>
    if isDigit b then takeDigits rest (acc * 10 + (b - 0x30)) else (acc, b :: rest)

/-- Modelled from the spec: the byte-level tokenizer (the external
`serde_json_lenient` crate, configured by `decode_json` but absent from
`src/`), restricted to the fragment the claims need.  Per the spec's §4.2/§7,
the tokenizer turns the byte stream into typed events and fails with a
`SyntaxError` on an unexpected leading byte (a raw `0xEF` byte, in
particular, begins no JSON token): here `null`, `true`, `false` and
non-negative integer literals are recognised. -/
def spanValue : List Nat → Except DeError (JsonEvent × List Nat)
  | 0x6e :: 0x75 :: 0x6c :: 0x6c :: rest => .ok (.eNull, rest)
  | 0x74 :: 0x72 :: 0x75 :: 0x65 :: rest => .ok (.eBool true, rest)
  | 0x66 :: 0x61 :: 0x6c :: 0x73 :: 0x65 :: rest => .ok (.eBool false, rest)
  | b :: rest =>
    if isDigit b then
      let r := takeDigits rest (b - 0x30)
      .ok (.eU64 r.1, r.2)
    else .error (DeError.custom "expected value")
  | [] => .error (DeError.custom "EOF while parsing a value")

/-- Modelled from the spec: one whole tokenizer run — a single top-level
value surrounded by whitespace; trailing non-whitespace content is the
spec's `TrailingDataError` (the `deserializer.end()` check of
`decode_json`). -/
def tokenizeSpec (bytes : List Nat) (_options : JsonOptions) :
    Except DeError JsonEvent :=
  match spanValue (skipWs bytes) with
  | .error e => .error e
  | .ok r => if skipWs r.2 = [] then .ok r.1 else .error (DeError.custom "trailing characters")

/-- Errors surfaced by `decode_json` to its FFI wrapper: a
`serde_json_lenient::Error` exposing `line()`, `column()` (both `usize`) and
a message (`to_string()`). -/
structure DecodeErrorInfo where
  line : Nat
  column : Nat
  message : String
  deriving DecidableEq, Repr

/-- Embedding of `i32::try_from` applied to a `usize` value, as in
`err.line().try_into()` of `decode_json_from_cpp`. -/
def i32_try_from_usize (n : Nat) : Option Int :=
  if (n : Int) ≤ i32Max then some (n : Int) else none

/-- Embedding of `decode_json_from_cpp` (`json_parser.rs`), with the
underlying `decode_json` call's outcome as argument and the three
caller-provided out-parameters (`error_line`, `error_column`,
`error_message`) passed as their previous contents.  On error the line and
column are `try_into().unwrap_or(-1)` and the message buffer is cleared
(`clear()`) and then filled with `err.to_string()`; on success the
out-parameters are untouched.  Returns the success flag together with the
final contents of the three out-parameters. -/
def decode_json_from_cpp (result : Except DecodeErrorInfo Unit)
    (error_line error_column : Int) (error_message : String) :
    Bool × Int × Int × String :=
  match result with
  | .error err =>
    (false, (i32_try_from_usize err.line).getD (-1),
      (i32_try_from_usize err.column).getD (-1),
      "" ++ err.message)
  | .ok _ => (true, error_line, error_column, error_message)

mutual

/-- Nesting depth of an input, counting containers only: a scalar is nested
0 deep, a container one deeper than its deepest child (so the outermost
container itself counts as one level). -/
def nestingDepth : JsonEvent → Nat
  | .eMap kvs => 1 + nestingDepthEntries kvs
  | .eSeq es => 1 + nestingDepthList es
  | _ => 0
termination_by ev => sizeOf ev
decreasing_by all_goals simp_wf

/-- Deepest container nesting among list elements. -/
def nestingDepthList : List JsonEvent → Nat
  | [] => 0
  | e :: rest => max (nestingDepth e) (nestingDepthList rest)
termination_by es => sizeOf es
decreasing_by all_goals simp_wf <;> omega

/-- Deepest container nesting among map entry values. -/
def nestingDepthEntries : List (String × JsonEvent) → Nat
  | [] => 0
  | (_, e) :: rest => max (nestingDepth e) (nestingDepthEntries rest)
termination_by kvs => sizeOf kvs
decreasing_by all_goals simp_wf <;> omega

end

mutual

/-- The least guard value under which visiting the event succeeds: scalars
need none; a sequence always consumes one check (even when empty, because the
end-of-sequence iteration still evaluates `recurse()`), plus whatever its
elements need one level down; a map consumes checks only when it has
entries. -/
def requiredGuard : JsonEvent → Nat
  | .eMap [] => 0
  | .eMap (kv :: rest) => 1 + requiredGuardEntries (kv :: rest)
  | .eSeq es => 1 + requiredGuardList es
  | _ => 0
termination_by ev => sizeOf ev
decreasing_by all_goals simp_wf

/-- Largest guard requirement among list elements. -/
def requiredGuardList : List JsonEvent → Nat
  | [] => 0
  | e :: rest => max (requiredGuard e) (requiredGuardList rest)
termination_by es => sizeOf es
decreasing_by all_goals simp_wf <;> omega

/-- Largest guard requirement among map entry values. -/
def requiredGuardEntries : List (String × JsonEvent) → Nat
  | [] => 0
  | (_, e) :: rest => max (requiredGuard e) (requiredGuardEntries rest)
termination_by kvs => sizeOf kvs
decreasing_by all_goals simp_wf <;> omega

end

/-- A chain of `n + 1` nested dicts: `nested 0` is the empty dict, and each
successor wraps the chain as the value of a single key. -/
def nested : Nat → JsonEvent
  | 0 => .eMap []
  | n + 1 => .eMap [("a", nested n)]

/-- Combine the independently computed per-element visit results of a
sequence the way the `visit_seq` loop does: keep values until the first
error, which is reported with its (partial) value still appended. -/
def combineSeqResults : List (SinkValue × Option DeError) →
    List SinkValue × Option DeError
  | [] => ([], Option.none)
  | (v, some e) :: _ => ([v], some e)
  | (v, Option.none) :: rest =>
    let r := combineSeqResults rest
    (v :: r.1, r.2)

/-- Combine the independently computed per-entry visit results of a map the
way the `visit_map` loop does: `set_*_key` each value until the first error,
whose (partial) value is still set. -/
def combineMapResults (acc : List (String × SinkValue)) :
    List (String × SinkValue × Option DeError) →
    List (String × SinkValue) × Option DeError
  | [] => (acc, Option.none)
  | (k, v, some e) :: _ => (dictSet acc k v, some e)
  | (k, v, Option.none) :: rest => combineMapResults (dictSet acc k v) rest

/-- The guard requirement of a map given its entry list: an empty map
consumes no recursion check, a non-empty one consumes one per entry plus
whatever its values need one level down. -/
def requiredGuardMap : List (String × JsonEvent) → Nat
  | [] => 0
  | kv :: rest => 1 + requiredGuardEntries (kv :: rest)

lemma recurse_zero : RecursionDepthCheck.recurse ⟨0⟩ = .error recursionLimitError := by
  simp [RecursionDepthCheck.recurse, checked_sub, recursionLimitError]

lemma recurse_succ (h : Nat) : RecursionDepthCheck.recurse ⟨h + 1⟩ = .ok ⟨h⟩ := by
  simp [RecursionDepthCheck.recurse, checked_sub]

/-- Claim C8: `with_chromium_extensions(d)` produces exactly the option set
with trailing commas and invalid-character replacement off, comments, control
characters, vertical-tab escapes and `\xNN` escapes on, and the given
`max_depth`. -/
theorem c8_with_chromium_extensions (d : Nat) :
    JsonOptions.with_chromium_extensions d =
      { allow_trailing_commas := false
        replace_invalid_characters := false
        allow_comments := true
        allow_control_chars := true
        allow_vert_tab := true
        allow_x_escapes := true
        max_depth := d } := rfl

/-- Claim C4: for a guard holding `r` remaining levels, `recurse()` returns a
new guard holding `r - 1` levels when `r > 0` and the
`RecursionLimitExceeded` error exactly when `r = 0`.  The source takes the
receiver by shared reference (`&self`) and never mutates it, so the original
guard's value is unchanged in either case (in this pure embedding that is
inherent: `recurse` only reads `c`). -/
theorem c4_recurse (c : RecursionDepthCheck) :
    c.recurse =
      if 0 < c.val then Except.ok ⟨c.val - 1⟩ else Except.error recursionLimitError := by
  rcases c with ⟨r⟩
  cases r with
  | zero => simpa using recurse_zero
  | succ h => simpa using recurse_succ h

/-- Claim C6: under the caller contract `max_depth ≥ 2`, the subtraction
`options.max_depth - 2` in `decode_json` never underflows (its panic branch,
the `none` branch of `usize_sub`, is unreachable), and the decode call
therefore always produces a result. -/
theorem c6_no_underflow (options : JsonOptions) (h : 2 ≤ options.max_depth) :
    usize_sub options.max_depth 2 = some (options.max_depth - 2) ∧
    ∀ ev, (decode_json ev options).isSome := by
  constructor
  · simp [usize_sub, h]
  · intro ev
    simp [decode_json, usize_sub, h]

/-- Closed witness for `c6_no_underflow` at `max_depth = 2`. -/
theorem c6_no_underflow_witness :
    usize_sub (JsonOptions.with_chromium_extensions 2).max_depth 2 = some 0 ∧
    ∀ ev, (decode_json ev (JsonOptions.with_chromium_extensions 2)).isSome :=
  c6_no_underflow (JsonOptions.with_chromium_extensions 2) (by decide)

/-- Claim C2: with `max_depth = D ≥ 2`, the recursion guard in force when the
root visitor runs holds exactly `D - 1` remaining levels: `decode_json`
passes `D - 2` into `ValueVisitor::new`, whose own `max_depth += 1` yields
`D - 1`. -/
theorem c2_root_guard (D : Nat) (h : 2 ≤ D) :
    (usize_sub D 2).map (fun d => (ValueVisitor.new d).recursion_depth_check) =
      some ⟨D - 1⟩ ∧
    ∀ ev, decode_json ev (JsonOptions.with_chromium_extensions D) =
      some (visitValue ev ⟨D - 1⟩) := by
  have hsub : usize_sub D 2 = some (D - 2) := by simp [usize_sub, h]
  have hval : D - 2 + 1 = D - 1 := by omega
  constructor
  · simp [hsub, ValueVisitor.new, hval]
  · intro ev
    simp [decode_json, JsonOptions.with_chromium_extensions, usize_sub, h,
      ValueVisitor.new, hval]

/-- Closed witness for `c2_root_guard` at `D = 5`: the root guard holds 4
remaining levels. -/
theorem c2_root_guard_witness :
    (usize_sub 5 2).map (fun d => (ValueVisitor.new d).recursion_depth_check) =
      some ⟨4⟩ ∧
    ∀ ev, decode_json ev (JsonOptions.with_chromium_extensions 5) =
      some (visitValue ev ⟨4⟩) :=
  c2_root_guard 5 (by decide)

/-- Claim C9: `decode_json_from_cpp` returns `false` exactly when the
underlying decode fails; on failure it writes the error's line and column,
replacing a value that does not fit an `i32` by `-1`, and the message buffer
is cleared and then filled with the error's message — so its final contents
never depend on what the caller had in it.  On success the out-parameters
keep their previous contents. -/
theorem c9_from_cpp (result : Except DecodeErrorInfo Unit) (pl pc : Int) (pm : String) :
    ((decode_json_from_cpp result pl pc pm).1 = false ↔ ∃ e, result = .error e) ∧
    (∀ e, result = .error e →
      decode_json_from_cpp result pl pc pm =
        (false,
          if (e.line : Int) ≤ 2 ^ 31 - 1 then (e.line : Int) else -1,
          if (e.column : Int) ≤ 2 ^ 31 - 1 then (e.column : Int) else -1,
          e.message)) ∧
    (result = .ok () → decode_json_from_cpp result pl pc pm = (true, pl, pc, pm)) := by
  refine ⟨?_, ?_, ?_⟩
  · cases result with
    | error e => simp [decode_json_from_cpp]
    | ok u => simp [decode_json_from_cpp]
  · rintro e rfl
    simp only [decode_json_from_cpp, i32_try_from_usize, i32Max, String.empty_append]
    split_ifs <;> simp
  · rintro rfl
    simp [decode_json_from_cpp]

/-- Closed witness for `c9_from_cpp`: an error at line 5, column `2 ^ 40`
(too large for an `i32`) yields `false`, line 5, column `-1`, and the error
message regardless of the buffer's previous contents. -/
theorem c9_from_cpp_witness :
    decode_json_from_cpp (.error ⟨5, 2 ^ 40, "boom"⟩) 7 8 "old" =
      (false, 5, -1, "boom") := by
  have h := (c9_from_cpp (.error ⟨5, 2 ^ 40, "boom"⟩) 7 8 "old").2.1 ⟨5, 2 ^ 40, "boom"⟩ rfl
  rw [h]
  norm_num

lemma stripBom_bom_append (s : List Nat) : stripBom (UTF8_BOM ++ s) = s := by
  simp [stripBom, UTF8_BOM]

lemma stripBom_eq_self (s : List Nat) (h : ¬(3 ≤ s.length ∧ s.take 3 = UTF8_BOM)) :
    stripBom s = s := by
  simp [stripBom, h]

/-- Claim C5 (amended): for every byte slice `s` that does not itself begin
with the UTF-8 BOM, and every option set, decoding `BOM ++ s` produces the
same result as decoding `s` — for any tokenizer whatsoever, since the only
byte-level step of `decode_json` is stripping one leading BOM.  (When `s`
itself begins with a BOM the two calls differ in general: only the first BOM
is stripped and the tokenizer receives a raw `0xEF` byte, see the
counterexample.) -/
theorem c5_bom_transparent
    (tokenize : List Nat → JsonOptions → Except DeError JsonEvent)
    (options : JsonOptions) (s : List Nat)
    (h : ¬(3 ≤ s.length ∧ s.take 3 = UTF8_BOM)) :
    decode_json_bytes tokenize (UTF8_BOM ++ s) options =
      decode_json_bytes tokenize s options := by
  unfold decode_json_bytes
  rw [stripBom_bom_append, stripBom_eq_self s h]

/-- Closed witness for `c5_bom_transparent`: the byte `"1"` decodes the same
with and without a leading BOM under the spec-modelled tokenizer. -/
theorem c5_bom_transparent_witness :
    decode_json_bytes tokenizeSpec (UTF8_BOM ++ [0x31])
        (JsonOptions.with_chromium_extensions 10) =
      decode_json_bytes tokenizeSpec [0x31]
        (JsonOptions.with_chromium_extensions 10) :=
  c5_bom_transparent tokenizeSpec (JsonOptions.with_chromium_extensions 10)
    [0x31] (by decide)

/-- Counterexample to claim C5 as stated: take `s = BOM ++ "1"` (a byte slice
that itself begins with the BOM).  Decoding `s` strips `s`'s own BOM and
parses `"1"` successfully, while decoding `BOM ++ s` strips only the first
BOM and hands the tokenizer input starting with the raw byte `0xEF`, a syntax
error — so the two results differ. -/
theorem c5_counterexample :
    decode_json_bytes tokenizeSpec (UTF8_BOM ++ (UTF8_BOM ++ [0x31]))
        (JsonOptions.with_chromium_extensions 10) ≠
      decode_json_bytes tokenizeSpec (UTF8_BOM ++ [0x31])
        (JsonOptions.with_chromium_extensions 10) := by
  rw [decode_json_bytes, decode_json_bytes, stripBom_bom_append, stripBom_bom_append]
  intro hcontra
  simp only [UTF8_BOM, tokenizeSpec, spanValue, skipWs, isWs, isDigit, takeDigits,
    usize_sub, ValueVisitor.new, List.cons_append, List.nil_append] at hcontra
  norm_num [visitValue, i32_try_from_u64, i32Max, takeDigits, skipWs, isWs,
    JsonOptions.with_chromium_extensions] at hcontra
  exact Option.some_ne_none _ hcontra.2

lemma roundToF64Nat_small (m : Nat) (h : m < 2 ^ 53) : roundToF64Nat m = m := by
  unfold roundToF64Nat
  rw [if_pos h]

/-- Rounding characterisation above `2 ^ 53`: the result is a multiple
`q' * 2 ^ e` of the local double spacing `2 ^ e` (with `e = log2 m - 52`),
its significand `q'` is at most `2 ^ 53`, and it is within half a spacing of
`m` — i.e. it is a nearest representable double. -/
lemma roundToF64Nat_spec (m : Nat) (h : 2 ^ 53 ≤ m) :
    ∃ q', q' ≤ 2 ^ 53 ∧ roundToF64Nat m = q' * 2 ^ (m.log2 - 52) ∧
      2 * Nat.dist (roundToF64Nat m) m ≤ 2 ^ (m.log2 - 52) := by
  have hm0 : m ≠ 0 := by positivity
  have hl : 53 ≤ m.log2 := (Nat.le_log2 hm0).mpr h
  have hub : m < 2 ^ (m.log2 + 1) := (Nat.log2_lt hm0).mp (Nat.lt_succ_self _)
  have hnot : ¬ m < 2 ^ 53 := not_lt.mpr h
  have hq : m / 2 ^ (m.log2 - 52) < 2 ^ 53 := by
    apply Nat.div_lt_of_lt_mul
    calc m < 2 ^ (m.log2 + 1) := hub
    _ = 2 ^ (m.log2 - 52) * 2 ^ 53 := by rw [← pow_add]; congr 1; omega
  have hdm := Nat.div_add_mod m (2 ^ (m.log2 - 52))
  have hr : m % 2 ^ (m.log2 - 52) < 2 ^ (m.log2 - 52) :=
    Nat.mod_lt _ (by positivity)
  have hgap : (2 : Nat) ^ (m.log2 - 52) = 2 * 2 ^ (m.log2 - 52 - 1) := by
    rw [← pow_succ']
    congr 1
    omega
  rw [roundToF64Nat]
  simp only [hnot, if_false]
  have hQA : m / 2 ^ (m.log2 - 52) * 2 ^ (m.log2 - 52) + m % 2 ^ (m.log2 - 52) = m :=
    Nat.div_add_mod' m (2 ^ (m.log2 - 52))
  split_ifs with hb
  · refine ⟨m / 2 ^ (m.log2 - 52) + 1, by omega, rfl, ?_⟩
    have hge : 2 ^ (m.log2 - 52 - 1) ≤ m % 2 ^ (m.log2 - 52) := by
      rcases hb with hb | hb
      · omega
      · omega
    have hmul : (m / 2 ^ (m.log2 - 52) + 1) * 2 ^ (m.log2 - 52)
        = m / 2 ^ (m.log2 - 52) * 2 ^ (m.log2 - 52) + 2 ^ (m.log2 - 52) := by ring
    rw [hmul]
    simp only [Nat.dist]
    omega
  · refine ⟨m / 2 ^ (m.log2 - 52), by omega, rfl, ?_⟩
    have hle : m % 2 ^ (m.log2 - 52) ≤ 2 ^ (m.log2 - 52 - 1) := by
      push_neg at hb
      exact hb.1
    simp only [Nat.dist]
    omega

/-- The cast `k as f64` is exact for every integer of magnitude below
`2 ^ 53`. -/
lemma f64OfInt_exact (k : Int) (h : k.natAbs < 2 ^ 53) : f64OfInt k = k := by
  rcases le_or_lt 0 k with hk | hk
  · have ht : k.toNat = k.natAbs := by omega
    rw [f64OfInt, if_pos hk, ht, roundToF64Nat_small _ h]
    omega
  · have ht : (-k).toNat = k.natAbs := by omega
    rw [f64OfInt, if_neg (by omega), ht, roundToF64Nat_small _ h]
    omega

/-- The deviation of `n as f64` from `n` equals the deviation of the
magnitude rounding. -/
lemma f64OfInt_dist (n : Int) :
    (f64OfInt n - n).natAbs = Nat.dist (roundToF64Nat n.natAbs) n.natAbs := by
  rcases le_or_lt 0 n with hn | hn
  · have ht : n.toNat = n.natAbs := by omega
    rw [f64OfInt, if_pos hn, ht]
    simp only [Nat.dist]
    omega
  · have ht : (-n).toNat = n.natAbs := by omega
    rw [f64OfInt, if_neg (by omega), ht]
    simp only [Nat.dist]
    omega

/-- Half-spacing bound for the cast on any integer: `n as f64` is within
half of `2 ^ (log2 |n| - 52)` of `n` (for `|n| < 2 ^ 53` the deviation is
zero, the spacing bound being trivial there). -/
lemma f64OfInt_half_ulp (n : Int) :
    2 * (f64OfInt n - n).natAbs ≤ 2 ^ (n.natAbs.log2 - 52) := by
  rw [f64OfInt_dist]
  rcases lt_or_le n.natAbs (2 ^ 53) with h | h
  · rw [roundToF64Nat_small _ h]
    simp [Nat.dist]
  · obtain ⟨q', -, -, hbound⟩ := roundToF64Nat_spec n.natAbs h
    exact hbound

/-- The magnitude of the cast result is `s * 2 ^ k` for a significand
`s ≤ 2 ^ 53`: the result is a representable double. -/
lemma roundToF64Nat_representable (m : Nat) :
    ∃ s k, s ≤ 2 ^ 53 ∧ roundToF64Nat m = s * 2 ^ k := by
  rcases lt_or_le m (2 ^ 53) with h | h
  · exact ⟨m, 0, by omega, by rw [roundToF64Nat_small _ h]; ring⟩
  · obtain ⟨q', hq', heq, -⟩ := roundToF64Nat_spec m h
    exact ⟨q', m.log2 - 52, hq', heq⟩

/-- Claim C3: a signed or unsigned 64-bit integer event value that fits in an
`i32` is written to the sink as exactly that 32-bit integer; any other value
is written as the double `n as f64` — i.e. `f64OfInt n`, which is exact below
`2 ^ 53` and in general is a representable double within half of the local
double spacing of `n` (nearest-representable rounding). -/
theorem c3_integer_overflow_policy (g : RecursionDepthCheck) (n : Int) (m : Nat)
    (_hn1 : i64Min ≤ n) (_hn2 : n ≤ i64Max) (_hm : m ≤ u64Max) :
    (visitValue (.eI64 n) g =
      ((if i32Min ≤ n ∧ n ≤ i32Max then SinkValue.integer n
        else SinkValue.double ((f64OfInt n : Int) : Rat)), Option.none)) ∧
    (visitValue (.eU64 m) g =
      ((if (m : Int) ≤ i32Max then SinkValue.integer (m : Int)
        else SinkValue.double ((f64OfInt m : Int) : Rat)), Option.none)) ∧
    (∀ k : Int, k.natAbs < 2 ^ 53 → f64OfInt k = k) ∧
    (2 * (f64OfInt n - n).natAbs ≤ 2 ^ (n.natAbs.log2 - 52)) ∧
    (2 * (f64OfInt m - m).natAbs ≤ 2 ^ ((m : Int).natAbs.log2 - 52)) ∧
    (∃ s k, s ≤ 2 ^ 53 ∧ (f64OfInt n).natAbs = s * 2 ^ k) ∧
    (∃ s k, s ≤ 2 ^ 53 ∧ (f64OfInt m).natAbs = s * 2 ^ k) := by
  have habs : ∀ j : Int, (f64OfInt j).natAbs = roundToF64Nat j.natAbs := by
    intro j
    rcases le_or_lt 0 j with hj | hj
    · rw [f64OfInt, if_pos hj]
      simp only [Int.natAbs_ofNat]
      congr 1
      omega
    · rw [f64OfInt, if_neg (by omega)]
      simp only [Int.natAbs_neg, Int.natAbs_ofNat]
      congr 1
      omega
  refine ⟨?_, ?_, f64OfInt_exact, f64OfInt_half_ulp n, f64OfInt_half_ulp m, ?_, ?_⟩
  · rw [visitValue, i32_try_from_i64]
    split_ifs with hfit
    · rfl
    · rfl
  · rw [visitValue, i32_try_from_u64]
    split_ifs with hfit
    · rfl
    · rfl
  · rw [habs n]
    exact roundToF64Nat_representable n.natAbs
  · rw [habs (m : Int)]
    exact roundToF64Nat_representable (m : Int).natAbs

/-- Closed witness for `c3_integer_overflow_policy` at `n = 2 ^ 62 + 1`
(outside the `i32` range, rounded to the double `2 ^ 62`, which is within
half of the spacing `2 ^ 10`) and `m = 7` (written as the exact integer
`7`). -/
theorem c3_integer_overflow_policy_witness :
    visitValue (.eI64 (2 ^ 62 + 1)) ⟨0⟩ =
      (SinkValue.double ((2 ^ 62 : Int) : Rat), Option.none) ∧
    visitValue (.eU64 7) ⟨0⟩ = (SinkValue.integer 7, Option.none) := by
  obtain ⟨h1, h2, -, -, -, -, -⟩ :=
    c3_integer_overflow_policy ⟨0⟩ (2 ^ 62 + 1) 7
      (by norm_num [i64Min]) (by norm_num [i64Max]) (by norm_num [u64Max])
  constructor
  · rw [h1, if_neg (by norm_num [i32Min, i32Max])]
    have hlog : (2 ^ 62 + 1 : Nat).log2 = 62 := by
      have h62 : 62 ≤ (2 ^ 62 + 1 : Nat).log2 :=
        (Nat.le_log2 (by norm_num)).mpr (by norm_num)
      have h63 : (2 ^ 62 + 1 : Nat).log2 < 63 :=
        (Nat.log2_lt (by norm_num)).mpr (by norm_num)
      omega
    have hn : (2 ^ 62 + 1 : Int).toNat = 2 ^ 62 + 1 := by
      norm_num
      omega
    rw [f64OfInt, if_pos (by norm_num), hn, roundToF64Nat, if_neg (by norm_num)]
    simp only [hlog]
    norm_num
  · rw [h2, if_pos (by norm_num [i32Max])]
    norm_num

lemma visitSeqElems_combine (h : Nat) (es : List JsonEvent) :
    ∀ acc : List SinkValue,
      visitSeqElems ⟨h + 1⟩ es acc =
        (acc ++ (combineSeqResults (es.map fun e => visitValue e ⟨h⟩)).1,
          (combineSeqResults (es.map fun e => visitValue e ⟨h⟩)).2) := by
  induction es with
  | nil =>
    intro acc
    rw [visitSeqElems]
    simp [recurse_succ, combineSeqResults]
  | cons e rest ih =>
    intro acc
    rw [visitSeqElems]
    simp only [recurse_succ]
    rcases hvis : visitValue e ⟨h⟩ with ⟨v, err⟩
    cases err with
    | none => simp [hvis, combineSeqResults, ih (acc ++ [v])]
    | some e' => simp [hvis, combineSeqResults]

lemma visitMapEntries_combine (h : Nat) (kvs : List (String × JsonEvent)) :
    ∀ acc : List (String × SinkValue),
      visitMapEntries ⟨h + 1⟩ kvs acc =
        combineMapResults acc (kvs.map fun kv => (kv.1, visitValue kv.2 ⟨h⟩)) := by
  induction kvs with
  | nil =>
    intro acc
    rw [visitMapEntries]
    simp [combineMapResults]
  | cons kv rest ih =>
    intro acc
    rcases kv with ⟨k, e⟩
    rw [visitMapEntries]
    simp only [recurse_succ]
    rcases hvis : visitValue e ⟨h⟩ with ⟨v, err⟩
    cases err with
    | none => simp [hvis, combineMapResults, ih]
    | some e' => simp [hvis, combineMapResults]

/-- Claim C10: inside one container every child is visited with the guard
obtained by a single `recurse()` from the same parent guard value `h + 1`,
namely `⟨h⟩`: the whole container visit equals the per-child results
`visitValue child ⟨h⟩` — computed independently of any sibling — combined in
order until the first error.  Hence whether a given child raises
`RecursionLimitExceeded` depends only on that child and its depth, never on
how many siblings precede or follow it. -/
theorem c10_sibling_independent (h : Nat) (es : List JsonEvent)
    (kvs : List (String × JsonEvent)) :
    visitValue (.eSeq es) ⟨h + 1⟩ =
      (SinkValue.list (combineSeqResults (es.map fun e => visitValue e ⟨h⟩)).1,
        (combineSeqResults (es.map fun e => visitValue e ⟨h⟩)).2) ∧
    visitValue (.eMap kvs) ⟨h + 1⟩ =
      (SinkValue.dict
          (combineMapResults [] (kvs.map fun kv => (kv.1, visitValue kv.2 ⟨h⟩))).1,
        (combineMapResults [] (kvs.map fun kv => (kv.1, visitValue kv.2 ⟨h⟩))).2) := by
  constructor
  · rw [visitValue, visitSeqElems_combine h es []]
    simp
  · rw [visitValue, visitMapEntries_combine h kvs []]

/-- Under the `max_depth ≥ 2` contract, the decode call is exactly a root
visit with a guard of `max_depth - 1` remaining levels. -/
lemma decode_json_eq (options : JsonOptions) (h : 2 ≤ options.max_depth)
    (ev : JsonEvent) :
    decode_json ev options = some (visitValue ev ⟨options.max_depth - 1⟩) := by
  have hval : options.max_depth - 2 + 1 = options.max_depth - 1 := by omega
  simp [decode_json, usize_sub, h, ValueVisitor.new, hval]

lemma visitSeqElems_err_partial (g : Nat) (es : List JsonEvent) :
    ∀ (acc : List SinkValue) (e : DeError),
      (visitSeqElems ⟨g⟩ es acc).2 = some e →
      ∃ k, k ≤ es.length ∧
        (visitSeqElems ⟨g⟩ es acc).1 =
          acc ++ (es.take k).map (fun x => (visitValue x ⟨g - 1⟩).1) := by
  cases g with
  | zero =>
    intro acc e _
    refine ⟨0, by simp, ?_⟩
    rw [visitSeqElems]
    simp [recurse_zero]
  | succ h =>
    induction es with
    | nil =>
      intro acc e habs
      rw [visitSeqElems] at habs
      simp [recurse_succ] at habs
    | cons x rest ih =>
      intro acc e herr
      rw [visitSeqElems] at herr ⊢
      simp only [recurse_succ] at herr ⊢
      rcases hvis : visitValue x ⟨h⟩ with ⟨v, err⟩
      cases err with
      | some e' =>
        simp only [hvis] at herr ⊢
        exact ⟨1, by simp, by simp [hvis]⟩
      | none =>
        simp only [hvis] at herr ⊢
        obtain ⟨k', hk', heq⟩ := ih (acc ++ [v]) e herr
        refine ⟨k' + 1, by simpa using Nat.succ_le_succ hk', ?_⟩
        rw [heq]
        simp [hvis]

lemma visitMapEntries_err_partial (g : Nat) (kvs : List (String × JsonEvent)) :
    ∀ (acc : List (String × SinkValue)) (e : DeError),
      (visitMapEntries ⟨g⟩ kvs acc).2 = some e →
      ∃ k, k ≤ kvs.length ∧
        (visitMapEntries ⟨g⟩ kvs acc).1 =
          ((kvs.take k).map (fun kv => (kv.1, (visitValue kv.2 ⟨g - 1⟩).1))).foldl
            (fun a p => dictSet a p.1 p.2) acc := by
  induction kvs with
  | nil =>
    intro acc e habs
    rw [visitMapEntries] at habs
    simp at habs
  | cons kv rest ih =>
    rcases kv with ⟨k0, x⟩
    intro acc e herr
    rw [visitMapEntries] at herr ⊢
    cases g with
    | zero =>
      simp only [recurse_zero] at herr ⊢
      exact ⟨0, by simp, by simp⟩
    | succ h =>
      simp only [recurse_succ] at herr ⊢
      rcases hvis : visitValue x ⟨h⟩ with ⟨v, err⟩
      cases err with
      | some e' =>
        simp only [hvis] at herr ⊢
        exact ⟨1, by simp, by simp [hvis]⟩
      | none =>
        simp only [hvis] at herr ⊢
        obtain ⟨k', hk', heq⟩ := ih (dictSet acc k0 v) e herr
        refine ⟨k' + 1, by simpa using Nat.succ_le_succ hk', ?_⟩
        rw [heq]
        simp [hvis]

/-- Claim C7: when a decode call fails, nothing already written into the sink
is removed or rolled back.  For a failing root container the sink holds
exactly the container populated with the per-child writes performed before
(and during) the failing child's visit: the first `k` children's values, each
itself possibly partial, with no cleanup — in particular the sink is not
reset to its unset state. -/
theorem c7_no_rollback (D : Nat) (hD : 2 ≤ D) (es : List JsonEvent)
    (kvs : List (String × JsonEvent)) (v : SinkValue) (e : DeError) :
    (decode_json (.eSeq es) (JsonOptions.with_chromium_extensions D) =
        some (v, some e) →
      ∃ k, k ≤ es.length ∧
        v = SinkValue.list ((es.take k).map fun x => (visitValue x ⟨D - 2⟩).1)) ∧
    (decode_json (.eMap kvs) (JsonOptions.with_chromium_extensions D) =
        some (v, some e) →
      ∃ k, k ≤ kvs.length ∧
        v = SinkValue.dict
          (((kvs.take k).map (fun kv => (kv.1, (visitValue kv.2 ⟨D - 2⟩).1))).foldl
            (fun a p => dictSet a p.1 p.2) [])) := by
  have hD2 : D - 1 - 1 = D - 2 := by omega
  constructor
  · intro hdec
    rw [decode_json_eq _ (by simpa using hD), visitValue] at hdec
    simp only [JsonOptions.with_chromium_extensions] at hdec
    rw [Option.some_inj, Prod.mk.injEq] at hdec
    obtain ⟨k, hk, heq⟩ :=
      visitSeqElems_err_partial (D - 1) es [] e (by rw [hdec.2])
    refine ⟨k, hk, ?_⟩
    rw [← hdec.1, heq, hD2]
    simp
  · intro hdec
    rw [decode_json_eq _ (by simpa using hD), visitValue] at hdec
    simp only [JsonOptions.with_chromium_extensions] at hdec
    rw [Option.some_inj, Prod.mk.injEq] at hdec
    obtain ⟨k, hk, heq⟩ :=
      visitMapEntries_err_partial (D - 1) kvs [] e (by rw [hdec.2])
    refine ⟨k, hk, ?_⟩
    rw [← hdec.1, heq, hD2]

/-- Closed witness for `c7_no_rollback`: with `max_depth = 3`, decoding the
list `[true, [[null]]]` fails on the innermost list, yet the sink retains the
outer list with the boolean `true` and the partial nested list. -/
theorem c7_no_rollback_witness :
    ∃ k, k ≤ 2 ∧
      SinkValue.list [SinkValue.bool true, SinkValue.list [SinkValue.list []]] =
        SinkValue.list
          (([JsonEvent.eBool true,
             JsonEvent.eSeq [JsonEvent.eSeq [JsonEvent.eNull]]].take k).map
            fun x => (visitValue x ⟨1⟩).1) := by
  refine (c7_no_rollback 3 (by decide)
    [JsonEvent.eBool true, JsonEvent.eSeq [JsonEvent.eSeq [JsonEvent.eNull]]] []
    (SinkValue.list [SinkValue.bool true, SinkValue.list [SinkValue.list []]])
    recursionLimitError).1 ?_
  rw [decode_json_eq _ (by decide)]
  simp only [JsonOptions.with_chromium_extensions]
  rw [visitValue]
  rw [visitSeqElems]
  norm_num [recurse_succ, recurse_zero, visitValue, visitSeqElems, recursionLimitError]

lemma requiredGuard_eMap (kvs : List (String × JsonEvent)) :
    requiredGuard (.eMap kvs) = requiredGuardMap kvs := by
  cases kvs with
  | nil => rw [requiredGuard, requiredGuardMap]
  | cons kv rest => rw [requiredGuard, requiredGuardMap]

lemma visitSeqElems_snd_char (g : Nat) :
    ∀ es : List JsonEvent,
      (∀ x ∈ es, ∀ g', (visitValue x ⟨g'⟩).2 =
        if requiredGuard x ≤ g' then Option.none else some recursionLimitError) →
      ∀ acc, (visitSeqElems ⟨g⟩ es acc).2 =
        if 1 + requiredGuardList es ≤ g then Option.none
        else some recursionLimitError := by
  cases g with
  | zero =>
    intro es _ acc
    rw [visitSeqElems]
    simp only [recurse_zero]
    rw [if_neg (by omega)]
  | succ h =>
    intro es
    induction es with
    | nil =>
      intro _ acc
      rw [visitSeqElems]
      simp only [recurse_succ, requiredGuardList]
      rw [if_pos (by omega)]
    | cons x rest ih =>
      intro hch acc
      rw [visitSeqElems]
      simp only [recurse_succ]
      rcases hvis : visitValue x ⟨h⟩ with ⟨v, err⟩
      have herr : err = if requiredGuard x ≤ h then Option.none
          else some recursionLimitError := by
        have hx := hch x (by simp) h
        rw [hvis] at hx
        exact hx
      rcases le_or_lt (requiredGuard x) h with hx | hx
      · rw [if_pos hx] at herr
        subst herr
        simp only [hvis]
        rw [ih (fun y hy => hch y (by simp [hy])) (acc ++ [v])]
        simp only [requiredGuardList]
        split_ifs with h1 h2 <;> first | rfl | omega
      · rw [if_neg (not_le.mpr hx)] at herr
        subst herr
        simp only [hvis, requiredGuardList]
        rw [if_neg (by omega)]

lemma visitMapEntries_snd_char (g : Nat) :
    ∀ kvs : List (String × JsonEvent),
      (∀ kv ∈ kvs, ∀ g', (visitValue kv.2 ⟨g'⟩).2 =
        if requiredGuard kv.2 ≤ g' then Option.none else some recursionLimitError) →
      ∀ acc, (visitMapEntries ⟨g⟩ kvs acc).2 =
        if requiredGuardMap kvs ≤ g then Option.none
        else some recursionLimitError := by
  intro kvs
  induction kvs with
  | nil =>
    intro _ acc
    rw [visitMapEntries]
    simp only [requiredGuardMap]
    rw [if_pos (by omega)]
  | cons kv rest ih =>
    rcases kv with ⟨k0, x⟩
    intro hch acc
    rw [visitMapEntries]
    cases g with
    | zero =>
      simp only [recurse_zero, requiredGuardMap]
      rw [if_neg (by omega)]
    | succ h =>
      simp only [recurse_succ]
      rcases hvis : visitValue x ⟨h⟩ with ⟨v, err⟩
      have herr : err = if requiredGuard x ≤ h then Option.none
          else some recursionLimitError := by
        have hx := hch (k0, x) (by simp) h
        rw [hvis] at hx
        exact hx
      rcases le_or_lt (requiredGuard x) h with hx | hx
      · rw [if_pos hx] at herr
        subst herr
        simp only [hvis]
        rw [ih (fun y hy => hch y (by simp [hy])) (dictSet acc k0 v)]
        cases rest with
        | nil =>
          simp only [requiredGuardMap, requiredGuardEntries]
          split_ifs with h1 h2 <;> first | rfl | omega
        | cons kv2 rest2 =>
          simp only [requiredGuardMap, requiredGuardEntries]
          split_ifs with h1 h2 <;> first | rfl | omega
      · rw [if_neg (not_le.mpr hx)] at herr
        subst herr
        simp only [hvis, requiredGuardMap, requiredGuardEntries]
        rw [if_neg (by omega)]

/-- Full success/failure law of the visitor: a visit fails — and then always
with the `RecursionLimitExceeded` error — exactly when the guard holds fewer
remaining levels than the event requires. -/
lemma visit_snd_char (N : Nat) : ∀ ev : JsonEvent, sizeOf ev ≤ N → ∀ g : Nat,
    (visitValue ev ⟨g⟩).2 =
      if requiredGuard ev ≤ g then Option.none else some recursionLimitError := by
  induction N with
  | zero =>
    intro ev h g
    exfalso
    cases ev <;> simp at h
  | succ N ih =>
    intro ev h g
    cases ev with
    | eNull => simp [visitValue, requiredGuard]
    | eBool b => simp [visitValue, requiredGuard]
    | eI8 n => simp [visitValue, requiredGuard]
    | eI32 n => simp [visitValue, requiredGuard]
    | eI64 n => cases hi : i32_try_from_i64 n <;> simp [visitValue, hi, requiredGuard]
    | eU64 m => cases hi : i32_try_from_u64 m <;> simp [visitValue, hi, requiredGuard]
    | eF64 x => simp [visitValue, requiredGuard]
    | eStr s => simp [visitValue, requiredGuard]
    | eSeq es =>
      have hch : ∀ x ∈ es, ∀ g', (visitValue x ⟨g'⟩).2 =
          if requiredGuard x ≤ g' then Option.none else some recursionLimitError := by
        intro x hx g'
        have h1 : sizeOf x < sizeOf es := List.sizeOf_lt_of_mem hx
        have h2 : sizeOf (JsonEvent.eSeq es) = 1 + sizeOf es := by simp
        exact ih x (by omega) g'
      rw [visitValue]
      show (visitSeqElems ⟨g⟩ es []).2 = _
      rw [visitSeqElems_snd_char g es hch []]
      cases es with
      | nil => rw [requiredGuard]
      | cons x rest => rw [requiredGuard]
    | eMap kvs =>
      have hch : ∀ kv ∈ kvs, ∀ g', (visitValue kv.2 ⟨g'⟩).2 =
          if requiredGuard kv.2 ≤ g' then Option.none else some recursionLimitError := by
        intro kv hkv g'
        have h1 : sizeOf kv < sizeOf kvs := List.sizeOf_lt_of_mem hkv
        have h2 : sizeOf (JsonEvent.eMap kvs) = 1 + sizeOf kvs := by simp
        have h3 : sizeOf kv.2 < sizeOf kv := by
          rcases kv with ⟨k, x⟩
          simp
        exact ih kv.2 (by omega) g'
      rw [visitValue]
      show (visitMapEntries ⟨g⟩ kvs []).2 = _
      rw [visitMapEntries_snd_char g kvs hch [], requiredGuard_eMap]

lemma nestingDepthList_le (es : List JsonEvent)
    (hch : ∀ e ∈ es, nestingDepth e ≤ requiredGuard e + 1) :
    nestingDepthList es ≤ requiredGuardList es + 1 := by
  induction es with
  | nil => simp [nestingDepthList, requiredGuardList]
  | cons x rest ih =>
    rw [nestingDepthList, requiredGuardList]
    have hx := hch x (by simp)
    have hr := ih (fun e he => hch e (by simp [he]))
    omega

lemma nestingDepthEntries_le (kvs : List (String × JsonEvent))
    (hch : ∀ kv ∈ kvs, nestingDepth kv.2 ≤ requiredGuard kv.2 + 1) :
    nestingDepthEntries kvs ≤ requiredGuardEntries kvs + 1 := by
  induction kvs with
  | nil => simp [nestingDepthEntries, requiredGuardEntries]
  | cons kv rest ih =>
    rcases kv with ⟨k, x⟩
    rw [nestingDepthEntries, requiredGuardEntries]
    have hx : nestingDepth x ≤ requiredGuard x + 1 := hch (k, x) (by simp)
    have hr := ih (fun e he => hch e (by simp [he]))
    omega

/-- The guard requirement is at least the container nesting depth minus
one. -/
lemma nestingDepth_le_requiredGuard (N : Nat) :
    ∀ ev : JsonEvent, sizeOf ev ≤ N → nestingDepth ev ≤ requiredGuard ev + 1 := by
  induction N with
  | zero =>
    intro ev h
    exfalso
    cases ev <;> simp at h
  | succ N ih =>
    intro ev h
    cases ev with
    | eNull => simp [nestingDepth, requiredGuard]
    | eBool b => simp [nestingDepth, requiredGuard]
    | eI8 n => simp [nestingDepth, requiredGuard]
    | eI32 n => simp [nestingDepth, requiredGuard]
    | eI64 n => simp [nestingDepth, requiredGuard]
    | eU64 m => simp [nestingDepth, requiredGuard]
    | eF64 x => simp [nestingDepth, requiredGuard]
    | eStr s => simp [nestingDepth, requiredGuard]
    | eSeq es =>
      have hch : ∀ e ∈ es, nestingDepth e ≤ requiredGuard e + 1 := by
        intro x hx
        have h1 : sizeOf x < sizeOf es := List.sizeOf_lt_of_mem hx
        have h2 : sizeOf (JsonEvent.eSeq es) = 1 + sizeOf es := by simp
        exact ih x (by omega)
      have hl := nestingDepthList_le es hch
      rw [nestingDepth, requiredGuard]
      omega
    | eMap kvs =>
      have hch : ∀ kv ∈ kvs, nestingDepth kv.2 ≤ requiredGuard kv.2 + 1 := by
        intro kv hkv
        have h1 : sizeOf kv < sizeOf kvs := List.sizeOf_lt_of_mem hkv
        have h2 : sizeOf (JsonEvent.eMap kvs) = 1 + sizeOf kvs := by simp
        have h3 : sizeOf kv.2 < sizeOf kv := by
          rcases kv with ⟨k, x⟩
          simp
        exact ih kv.2 (by omega)
      have hl := nestingDepthEntries_le kvs hch
      rw [nestingDepth, requiredGuard_eMap]
      cases kvs with
      | nil => simp [nestingDepthEntries, requiredGuardMap]
      | cons kv rest => rw [requiredGuardMap]; omega

lemma requiredGuard_nested (n : Nat) : requiredGuard (nested n) = n := by
  induction n with
  | zero => rw [nested, requiredGuard]
  | succ k ih =>
    rw [nested, requiredGuard, requiredGuardEntries, requiredGuardEntries, ih]
    omega

lemma nestingDepth_nested (n : Nat) : nestingDepth (nested n) = n + 1 := by
  induction n with
  | zero => rw [nested, nestingDepth, nestingDepthEntries]
  | succ k ih =>
    rw [nested, nestingDepth, nestingDepthEntries, nestingDepthEntries, ih]
    omega

/-- Claim C1 (amended): with `max_depth = D ≥ 2`, decoding succeeds exactly
when the input's guard requirement is at most `D - 1`, and any failure is the
`RecursionLimitExceeded` error.  A chain of dicts nested exactly `D` levels
deep (counting the outermost container) therefore succeeds, and every input
nested `D + 1` or more levels deep fails with `RecursionLimitExceeded`.  The
claim's success half does not hold for arbitrary shapes at depth exactly
`D`: a *list* consumes one recursion check even for its end-of-sequence
iteration, so e.g. a chain of `D` nested lists requires `D + 1` — see the
counterexample. -/
theorem c1_depth_limit (D : Nat) (hD : 2 ≤ D) :
    (∀ ev, (decode_json ev (JsonOptions.with_chromium_extensions D)).map Prod.snd =
      some (if requiredGuard ev ≤ D - 1 then Option.none
        else some recursionLimitError)) ∧
    nestingDepth (nested (D - 1)) = D ∧
    (decode_json (nested (D - 1)) (JsonOptions.with_chromium_extensions D)).map
        Prod.snd = some Option.none ∧
    (∀ ev, D + 1 ≤ nestingDepth ev →
      (decode_json ev (JsonOptions.with_chromium_extensions D)).map Prod.snd =
        some (some recursionLimitError)) := by
  have hgen : ∀ ev, (decode_json ev (JsonOptions.with_chromium_extensions D)).map
      Prod.snd = some (if requiredGuard ev ≤ D - 1 then Option.none
        else some recursionLimitError) := by
    intro ev
    rw [decode_json_eq _ (by simpa using hD)]
    simp only [JsonOptions.with_chromium_extensions, Option.map_some']
    rw [visit_snd_char (sizeOf ev) ev le_rfl (D - 1)]
  refine ⟨hgen, nestingDepth_nested (D - 1) ▸ by omega, ?_, ?_⟩
  · rw [hgen (nested (D - 1)), requiredGuard_nested, if_pos le_rfl]
  · intro ev hnest
    have hreq := nestingDepth_le_requiredGuard (sizeOf ev) ev le_rfl
    rw [hgen ev, if_neg (by omega)]

/-- Closed witness for `c1_depth_limit` at `D = 3`: the dict chain nested
exactly 3 deep decodes successfully, and the one nested 4 deep fails with
`RecursionLimitExceeded`. -/
theorem c1_depth_limit_witness :
    (decode_json (nested 2) (JsonOptions.with_chromium_extensions 3)).map
        Prod.snd = some Option.none ∧
    (decode_json (nested 3) (JsonOptions.with_chromium_extensions 3)).map
        Prod.snd = some (some recursionLimitError) := by
  constructor
  · exact (c1_depth_limit 3 (by decide)).2.2.1
  · refine (c1_depth_limit 3 (by decide)).2.2.2 (nested 3) ?_
    rw [nestingDepth_nested]

/-- Counterexample to claim C1 as stated: with `max_depth = 2`, the input
`[[]]` — whose containers are nested exactly 2 levels deep, counting the
outermost container — does not decode successfully; it fails with
`RecursionLimitExceeded`, because the `visit_seq` loop evaluates `recurse()`
even for the iteration that discovers the end of the (empty) inner
sequence. -/
theorem c1_counterexample :
    nestingDepth (JsonEvent.eSeq [JsonEvent.eSeq []]) = 2 ∧
    (decode_json (JsonEvent.eSeq [JsonEvent.eSeq []])
        (JsonOptions.with_chromium_extensions 2)).map Prod.snd =
      some (some recursionLimitError) := by
  constructor
  · norm_num [nestingDepth, nestingDepthList]
  · rw [decode_json_eq _ (by decide)]
    simp only [JsonOptions.with_chromium_extensions, Option.map_some']
    rw [visitValue]
    show some (visitSeqElems ⟨2 - 1⟩ [JsonEvent.eSeq []] []).2 = _
    rw [visitSeqElems]
    norm_num [recurse_succ, recurse_zero, visitValue, visitSeqElems]
